import Mathlib

/-!
Verification of `extern-contribs-agg` (`src/main.go`), a batch utility that
collects external contributions to an organization's repositories, checkpoints
them, enriches them with profile lookups under a concurrency cap, and renders
a yearly report.

The Go code is shallowly embedded:
* Go strings are modelled as `List Char` wherever the code scans bytes
  (`strings.Split`, `strings.Contains`, `strings.HasPrefix`, ...), and as Lean
  `String` where they are only stored, compared or concatenated;
* `time.Time` values are modelled as `Int` instants where only ordering
  matters (`After`/`Before`), and as a civil `DateTime` record where
  RFC-3339 formatting/parsing matters (GitHub timestamps are UTC with second
  precision, so the civil fields determine the instant);
* Go maps keyed by login are modelled as association lists with `Nodup` keys
  where the distinction matters;
* `panic` paths are modelled with `Option`.
-/

namespace ExternContribs

/-! ## Byte-string primitives mirroring Go's `strings` package -/

/-- `strings.Split(s, sep)` for a one-character separator: splitting the empty
string yields `[""]`, and separators at the ends yield empty fields. -/
def splitOnCh (c : Char) : List Char → List (List Char)
  | [] => [[]]
  | x :: xs =>
    let r := splitOnCh c xs
    if x = c then [] :: r
    else (x :: r.headI) :: r.tail

/-- `strings.HasPrefix(s, pre)`. -/
def startsWithL (pre s : List Char) : Bool := pre.isPrefixOf s

/-- `strings.HasSuffix(s, suf)`. -/
def endsWithL (suf s : List Char) : Bool := suf.reverse.isPrefixOf s.reverse

/-- `strings.Contains(s, pat)`. -/
def containsL (s pat : List Char) : Bool :=
  match s with
  | [] => pat.isPrefixOf []
  | _ :: t => pat.isPrefixOf s || containsL t pat

/-- `strings.Join(fields, sep)` for a one-character separator. -/
def joinCh (sep : Char) : List (List Char) → List Char
  | [] => []
  | [f] => f
  | f :: rest => f ++ sep :: joinCh sep rest

/-! ## Filter Rules Provider (`getOrganizationEmailsAndNamesFromAuthors`)

`src/main.go:117-158`: the AUTHORS roster is split into lines; a line is
skipped when it starts with `#` or does not contain `@cockroachlabs.com`;
on a kept line the fields (split on `' '`) delimited by `<`/`>` are emails,
all of which are collected, and the text before the first email token is
collected as a display name. -/

/-- The required internal-domain substring, `"@cockroachlabs.com"`. -/
def orgDomain : List Char := "@cockroachlabs.com".data

/-- A field of the form `<...>`: `strings.HasPrefix(field, "<") &&
strings.HasSuffix(field, ">")` (`src/main.go:147`). -/
def isEmailTok (f : List Char) : Bool :=
  startsWithL "<".data f && endsWithL ">".data f

/-- `field[1 : len(field)-1]` (`src/main.go:152`). -/
def stripTok (f : List Char) : List Char := (f.drop 1).dropLast

/-- The per-line field loop of `src/main.go:144-155`. `acc` is the list of
fields already passed (`fields[:i]`), `seen` is the `seenEmail` flag; the
result is the pair (emails added, names added), in encounter order. -/
def scanFields (acc : List (List Char)) (seen : Bool) :
    List (List Char) → (List (List Char) × List (List Char))
  | [] => ([], [])
  | f :: rest =>
    if isEmailTok f then
      let r := scanFields (acc ++ [f]) true rest
      (stripTok f :: r.1, if seen then r.2 else joinCh ' ' acc :: r.2)
    else
      scanFields (acc ++ [f]) seen rest

/-- The lines loop of `src/main.go:137-156`, concatenating the email and name
contributions of every kept line. -/
def processLines : List (List Char) → (List (List Char) × List (List Char))
  | [] => ([], [])
  | line :: rest =>
    let r := processLines rest
    if startsWithL "#".data line then r
    else if !containsL line orgDomain then r
    else
      let lr := scanFields [] false (splitOnCh ' ' line)
      (lr.1 ++ r.1, lr.2 ++ r.2)

/-- `getOrganizationEmailsAndNamesFromAuthors` (`src/main.go:117-158`) on the
roster document's contents: returns (internal emails, internal names). -/
def getOrganizationEmailsAndNamesFromAuthors (contents : List Char) :
    (List (List Char) × List (List Char)) :=
  processLines (splitOnCh '\n' contents)

/-! ## Checkpoint Store (`src/main.go:416-435` store, `src/main.go:204-216,243-249` load)

The intermediate artifact maps each login to the list of its commit
timestamps rendered with `t.Format(time.RFC3339)`; loading parses each string
back with `time.Parse(time.RFC3339, tIn)` and panics on error.  GitHub commit
timestamps are UTC instants with second precision, so a stored instant is
determined by its civil fields; `DateTime` records those fields and the
format/parse pair is embedded on them. -/

structure DateTime where
  year : Nat
  month : Nat
  day : Nat
  hour : Nat
  minute : Nat
  second : Nat
deriving DecidableEq, Repr

/-- One decimal digit character. -/
def digitCh : Nat → Char
  | 0 => '0' | 1 => '1' | 2 => '2' | 3 => '3' | 4 => '4'
  | 5 => '5' | 6 => '6' | 7 => '7' | 8 => '8' | _ => '9'

/-- Numeric value of a digit character. -/
def digitVal (c : Char) : Nat := c.toNat - 48

/-- Whether `c` is a decimal digit. -/
def isDigitCh (c : Char) : Bool := '0' ≤ c && c ≤ '9'

/-- Zero-padded fixed-width decimal rendering, as Go's `Format` does for the
`2006`/`01`/`02`/`15`/`04`/`05` layout fields. -/
def pad : Nat → Nat → List Char
  | 0, _ => []
  | w + 1, n => pad w (n / 10) ++ [digitCh (n % 10)]

/-- Read exactly `w` digit characters, most significant first, extending the
accumulator `acc`; returns the value and the remaining characters. -/
def readFixed : Nat → Nat → List Char → Option (Nat × List Char)
  | 0, acc, cs => some (acc, cs)
  | _ + 1, _, [] => none
  | w + 1, acc, c :: cs =>
    if isDigitCh c then readFixed w (acc * 10 + digitVal c) cs else none

/-- Require the next character to be `c`. -/
def expectCh (c : Char) : List Char → Option (List Char)
  | [] => none
  | x :: xs => if x = c then some xs else none

/-- Gregorian leap-year rule. -/
def isLeapYear (y : Nat) : Bool := (y % 4 == 0 && y % 100 != 0) || y % 400 == 0

/-- Number of days in a month, as `time.Parse` uses to validate the day. -/
def daysInMonth (y m : Nat) : Nat :=
  if m = 2 then (if isLeapYear y then 29 else 28)
  else if m = 4 ∨ m = 6 ∨ m = 9 ∨ m = 11 then 30
  else 31

/-- `t.Format(time.RFC3339)` for a UTC instant with second precision:
`YYYY-MM-DDThh:mm:ssZ`. -/
def formatRFC3339 (d : DateTime) : List Char :=
  pad 4 d.year ++ '-' ::
    (pad 2 d.month ++ '-' ::
      (pad 2 d.day ++ 'T' ::
        (pad 2 d.hour ++ ':' ::
          (pad 2 d.minute ++ ':' ::
            (pad 2 d.second ++ ['Z'])))))

/-- `time.Parse(time.RFC3339, s)` restricted to the `Z`-suffixed strings the
store emits, including the field-range validation `time.Parse` performs. -/
def parseRFC3339 (cs : List Char) : Option DateTime :=
  match readFixed 4 0 cs with
  | none => none
  | some (y, cs) =>
    match expectCh '-' cs with
    | none => none
    | some cs =>
      match readFixed 2 0 cs with
      | none => none
      | some (mo, cs) =>
        match expectCh '-' cs with
        | none => none
        | some cs =>
          match readFixed 2 0 cs with
          | none => none
          | some (da, cs) =>
            match expectCh 'T' cs with
            | none => none
            | some cs =>
              match readFixed 2 0 cs with
              | none => none
              | some (h, cs) =>
                match expectCh ':' cs with
                | none => none
                | some cs =>
                  match readFixed 2 0 cs with
                  | none => none
                  | some (mi, cs) =>
                    match expectCh ':' cs with
                    | none => none
                    | some cs =>
                      match readFixed 2 0 cs with
                      | none => none
                      | some (s, cs) =>
                        match expectCh 'Z' cs with
                        | none => none
                        | some cs =>
                          if cs = [] ∧ 1 ≤ mo ∧ mo ≤ 12 ∧ 1 ≤ da ∧
                              da ≤ daysInMonth y mo ∧ h ≤ 23 ∧ mi ≤ 59 ∧
                              s ≤ 59 then
                            some ⟨y, mo, da, h, mi, s⟩
                          else none

/-- A UTC timestamp the checkpoint can actually hold: in-range civil fields
and a four-digit year, as the RFC-3339 layout fixes. -/
def ValidDateTime (d : DateTime) : Prop :=
  d.year ≤ 9999 ∧ 1 ≤ d.month ∧ d.month ≤ 12 ∧ 1 ≤ d.day ∧
    d.day ≤ daysInMonth d.year d.month ∧ d.hour ≤ 23 ∧ d.minute ≤ 59 ∧
    d.second ≤ 59

instance (d : DateTime) : Decidable (ValidDateTime d) := by
  unfold ValidDateTime; infer_instance

/-- The store loop of `src/main.go:420-425`: each timestamp rendered with
`Format(time.RFC3339)`. -/
def storeTimes (ts : List DateTime) : List (List Char) := ts.map formatRFC3339

/-- The load loop of `src/main.go:243-250`: each string parsed with
`time.Parse(time.RFC3339, ...)`; a parse failure panics (`none`). -/
def loadTimes : List (List Char) → Option (List DateTime)
  | [] => some []
  | s :: ss =>
    match parseRFC3339 s with
    | none => none
    | some t =>
      match loadTimes ss with
      | none => none
      | some ts => some (t :: ts)

/-- `json.Marshal(commitTimes)`: the artifact, keyed by login, holding the
formatted timestamp lists. -/
def storeRecord (R : List (String × List DateTime)) :
    List (String × List (List Char)) :=
  R.map (fun p => (p.1, storeTimes p.2))

/-- `json.Unmarshal` followed by per-user parsing: the reloaded record, or
`none` when any timestamp fails to parse. -/
def loadRecord : List (String × List (List Char)) →
    Option (List (String × List DateTime))
  | [] => some []
  | p :: ps =>
    match loadTimes p.2 with
    | none => none
    | some ts =>
      match loadRecord ps with
      | none => none
      | some rs => some ((p.1, ts) :: rs)

/-! ## Commit Collector filter (`src/main.go:375-408`)

Per commit, the loop body `continue`s (excludes) when any of the following
holds, in source order: the commit object has at least one parent, the author
login is empty, the login is an organization member, the commit author email
contains `@cockroachlabs.com`, the message starts with
`"Merge pull request "`, the author name is in the roster name set, or the
email is in the roster email set.  Otherwise the commit's (login, timestamp)
is recorded. -/

/-- The fields of a listed commit the filter inspects (`commit.GetCommit().Parents`,
`commit.GetAuthor().GetLogin()`, `commit.GetAuthor().GetName()`,
`commit.GetCommit().GetAuthor().GetEmail()`, `commit.GetCommit().GetMessage()`). -/
structure CommitRec where
  parents : Nat
  authorLogin : String
  authorName : String
  authorEmail : String
  message : String
deriving DecidableEq, Repr

/-- The filter of `src/main.go:375-396`: `true` when the commit survives every
`continue` and is appended to the contribution record. -/
def includeCommit (organizationMembers : List String)
    (names emails : List String) (c : CommitRec) : Bool :=
  !(c.parents > 0) &&
  !(c.authorLogin == "") &&
  !(organizationMembers.contains c.authorLogin) &&
  !(containsL c.authorEmail.data orgDomain) &&
  !("Merge pull request ".data.isPrefixOf c.message.data) &&
  !(names.contains c.authorName) &&
  !(emails.contains c.authorEmail)

/-! ## Aggregator/Formatter (`formatContributors`, `src/main.go:167-201`)

Instants are modelled as integers; `t.After(from)` is `from < t` and
`t.Before(to)` is `t < to`. -/

/-- The `user` struct of `src/main.go:160-165`. -/
structure GoUser where
  userURL : String
  login : String
  name : String
  times : List Int
deriving DecidableEq, Repr

/-- The `timesByUser` increment loop of `src/main.go:168-175` for one user:
the number of timestamps with `t.After(from) && t.Before(to)`. -/
def inRangeCount (fromT toT : Int) (ts : List Int) : Nat :=
  ts.countP (fun t => decide (fromT < t) && decide (t < toT))

/-- A `toSort` entry (`src/main.go:176-179`). -/
structure RankEntry where
  u : GoUser
  count : Nat
deriving DecidableEq, Repr

/-- The `toSort` list of `src/main.go:180-183`: one entry per user present in
the `timesByUser` map, i.e. per user with at least one in-range timestamp. -/
def toSortList (users : List GoUser) (fromT toT : Int) : List RankEntry :=
  users.filterMap (fun u =>
    if inRangeCount fromT toT u.times = 0 then none
    else some ⟨u, inRangeCount fromT toT u.times⟩)

/-- The comparator of `src/main.go:184-189`: equal counts fall back to login
ascending, otherwise count descending. -/
def lessEntry (a b : RankEntry) : Bool :=
  if a.count = b.count then decide (a.u.login < b.u.login)
  else decide (a.count > b.count)

/-- The total preorder `sort.Slice` sorts into: `a` may precede `b` iff `b`
need not strictly precede `a`. -/
def leEntry (a b : RankEntry) : Bool := !(lessEntry b a)

/-- The ranked entry list after `sort.Slice(toSort, ...)`. -/
def sortedEntries (users : List GoUser) (fromT toT : Int) : List RankEntry :=
  (toSortList users fromT toT).mergeSort leEntry

/-- One rendered entry: `fmt.Sprintf("[%s](%s) (%d)", name, userURL, count)`
(`src/main.go:195-198`). -/
def formatEntry (e : RankEntry) : String :=
  "[" ++ e.u.name ++ "](" ++ e.u.userURL ++ ") (" ++ toString e.count ++ ")"

/-- The `total += entry.count` fold of `src/main.go:192-194`. -/
def totalCount (l : List RankEntry) : Nat := l.foldl (fun acc e => acc + e.count) 0

/-- `formatContributors` (`src/main.go:167-201`): the summary line
`"%d contributors, %d commits\n\n"` followed by the comma-joined entries. -/
def formatContributors (users : List GoUser) (fromT toT : Int) : String :=
  toString (sortedEntries users fromT toT).length ++ " contributors, " ++
    toString (totalCount (sortedEntries users fromT toT)) ++ " commits\n\n" ++
    String.intercalate ", " ((sortedEntries users fromT toT).map formatEntry)

/-! ## Bounded Enricher collation (`src/main.go:264-276`)

After the barrier (`wg.Wait()`), each looked-up user is dropped when its
login is in the blocklist or its resolved name is in the roster name set;
survivors populate the `users` map consumed by every `formatContributors`
call. -/

/-- The collation loop of `src/main.go:267-276` over the delivered results:
skip blocklisted logins and blocklisted resolved names. -/
def collectUsers (results : List GoUser) (blocklisted blocklistedNames : List String) :
    List GoUser :=
  results.filter (fun u =>
    !(blocklisted.contains u.login) && !(blocklistedNames.contains u.name))

/-! ## Enrichment concurrency cap (`src/main.go:219-237`)

`rateLimit` is a channel of capacity `userRateLimit = 20`, pre-filled with 20
tokens; each lookup goroutine receives a token before calling `Users.Get` and
sends it back when it finishes.  The discipline is modelled as a transition
system over (tokens in the channel, goroutines not yet admitted, lookups
executing). -/

/-- `const userRateLimit = 20` (`src/main.go:220`). -/
def userRateLimit : Nat := 20

/-- Semaphore state: tokens buffered in `rateLimit`, goroutines waiting on
`<-rateLimit`, and lookups currently executing. -/
structure SemState where
  tokens : Nat
  waiting : Nat
  running : Nat
deriving DecidableEq, Repr

/-- The initial state for `n` spawned lookups: the channel holds
`userRateLimit` tokens, no lookup has started. -/
def initState (n : Nat) : SemState := ⟨userRateLimit, n, 0⟩

/-- One scheduler step: a waiting goroutine receives a token and starts its
lookup, or a running lookup finishes and sends its token back (the send can
only complete while the buffer has room). -/
inductive SemStep : SemState → SemState → Prop
  | acquire (s : SemState) (hw : 0 < s.waiting) (ht : 0 < s.tokens) :
      SemStep s ⟨s.tokens - 1, s.waiting - 1, s.running + 1⟩
  | release (s : SemState) (hr : 0 < s.running) (hc : s.tokens < userRateLimit) :
      SemStep s ⟨s.tokens + 1, s.waiting, s.running - 1⟩

/-- States the enrichment phase can reach from `initState n`. -/
inductive SemReachable (n : Nat) : SemState → Prop
  | init : SemReachable n (initState n)
  | step {s s' : SemState} : SemReachable n s → SemStep s s' → SemReachable n s'

/-! ## Theorems -/

/-- C1: the claim says a commit with no parents is excluded and a commit with
at least one parent passing the other filters is included; the code's guard
`if len(commit.GetCommit().Parents) > 0 { continue }` (`src/main.go:376`) does
the opposite.  Evaluating the embedded filter with empty member/roster sets
on the spec's own scenario commit (login `external1`, name `External One`,
email `external1@gmail.com`, message `Fix bug`): the zero-parent variant is
included and the one-parent variant is excluded. -/
theorem commit_filter_keeps_only_root_commits :
    includeCommit [] [] []
      ⟨0, "external1", "External One", "external1@gmail.com", "Fix bug"⟩ = true ∧
    includeCommit [] [] []
      ⟨1, "external1", "External One", "external1@gmail.com", "Fix bug"⟩ = false := by
  decide

/-- C5: the bucket counter counts exactly the timestamps strictly between
`from` and `to`: the count is the number of timestamps `t` with
`from < t ∧ t < to`; a timestamp equal to `from` adds nothing, a timestamp
equal to `to` adds nothing, and a timestamp strictly between them adds one. -/
theorem inRangeCount_strict_bounds (fromT toT : Int) (ts : List Int) :
    inRangeCount fromT toT ts = ts.countP (fun t => decide (fromT < t ∧ t < toT)) ∧
    inRangeCount fromT toT (fromT :: ts) = inRangeCount fromT toT ts ∧
    inRangeCount fromT toT (toT :: ts) = inRangeCount fromT toT ts ∧
    (∀ t : Int, fromT < t → t < toT →
      inRangeCount fromT toT (t :: ts) = inRangeCount fromT toT ts + 1) := by
  refine ⟨?_, ?_, ?_, ?_⟩
  · simp only [inRangeCount, Bool.decide_and]
  · simp [inRangeCount, List.countP_cons]
  · simp [inRangeCount, List.countP_cons]
  · intro t h1 h2
    simp [inRangeCount, List.countP_cons, h1, h2]

/-- C5 witness: at `from = 0`, `to = 10`, the timestamp `5` lying strictly
inside the range is counted once on top of the boundary timestamps `0` and
`10`, which are not counted. -/
theorem inRangeCount_strict_bounds_witness :
    inRangeCount 0 10 ((5 : Int) :: [0, 10]) = inRangeCount 0 10 [0, 10] + 1 :=
  (inRangeCount_strict_bounds 0 10 [0, 10]).2.2.2 5 (by decide) (by decide)

/-- Every reachable enrichment state keeps the running lookups and the
buffered tokens summing to the pool size. -/
theorem semReachable_sum (n : Nat) (s : SemState) (h : SemReachable n s) :
    s.running + s.tokens = userRateLimit := by
  induction h with
  | init => simp [initState]
  | step _ hstep ih =>
    cases hstep with
    | acquire hw ht => simp only at *; omega
    | release hr hc => simp only at *; omega

/-- C9: at no reachable point of the enrichment phase do more than
`userRateLimit = 20` profile lookups execute concurrently: a lookup starts
only by consuming a buffered token and returns its token on completion, so
the running count never exceeds the pool size. -/
theorem enrichment_cap_respected (n : Nat) (s : SemState)
    (h : SemReachable n s) : s.running ≤ userRateLimit := by
  have := semReachable_sum n s h
  omega

/-- C9 witness: the theorem applied to the initial state of a five-lookup
enrichment phase. -/
theorem enrichment_cap_respected_witness : (initState 5).running ≤ userRateLimit :=
  enrichment_cap_respected 5 (initState 5) SemReachable.init

/-- Splitting a list without the separator yields the single original piece. -/
theorem splitOnCh_eq_self (c : Char) (l : List Char) (h : c ∉ l) :
    splitOnCh c l = [l] := by
  induction l with
  | nil => rfl
  | cons x xs ih =>
    have hx : x ≠ c := fun hxc => h (hxc ▸ List.mem_cons_self x xs)
    have hxs : c ∉ xs := fun hm => h (List.mem_cons_of_mem x hm)
    simp [splitOnCh, hx, ih hxs]

/-- The field loop collects exactly the bracket-delimited fields, stripped, in
order, regardless of the accumulator and flag. -/
theorem scanFields_fst (fs : List (List Char)) :
    ∀ (acc : List (List Char)) (seen : Bool),
      (scanFields acc seen fs).1 = (fs.filter isEmailTok).map stripTok := by
  induction fs with
  | nil => intro acc seen; rfl
  | cons f rest ih =>
    intro acc seen
    by_cases hf : isEmailTok f = true
    · simp [scanFields, hf, ih]
    · simp only [Bool.not_eq_true] at hf
      simp [scanFields, hf, ih]

/-- Once the `seenEmail` flag is set, the field loop adds no further name. -/
theorem scanFields_snd_seen (fs : List (List Char)) :
    ∀ acc : List (List Char), (scanFields acc true fs).2 = [] := by
  induction fs with
  | nil => intro acc; rfl
  | cons f rest ih =>
    intro acc
    by_cases hf : isEmailTok f = true
    · simp [scanFields, hf, ih]
    · simp only [Bool.not_eq_true] at hf
      simp [scanFields, hf, ih]

/-- On a line with at least one email token, the field loop produces exactly
one name: the space-join of the fields before the first token. -/
theorem scanFields_snd (fs : List (List Char)) :
    ∀ acc : List (List Char), (∃ f ∈ fs, isEmailTok f = true) →
      (scanFields acc false fs).2 =
        [joinCh ' ' (acc ++ fs.takeWhile (fun f => !isEmailTok f))] := by
  induction fs with
  | nil =>
    intro acc h
    obtain ⟨f, hf, _⟩ := h
    exact absurd hf (List.not_mem_nil f)
  | cons f rest ih =>
    intro acc h
    by_cases hf : isEmailTok f = true
    · simp [scanFields, hf, scanFields_snd_seen, List.takeWhile_cons, hf]
    · simp only [Bool.not_eq_true] at hf
      have hrest : ∃ g ∈ rest, isEmailTok g = true := by
        obtain ⟨g, hg, hgt⟩ := h
        rcases List.mem_cons.mp hg with hgf | hgr
        · exact absurd (hgf ▸ hgt) (by simp [hf])
        · exact ⟨g, hgr, hgt⟩
      simp [scanFields, hf, ih (acc ++ [f]) hrest, List.takeWhile_cons]

/-- Every email collected by the lines loop comes from a kept line: one that
does not start with `#`, contains the internal domain, and yields the email
through its own field scan. -/
theorem processLines_email_sourced (ls : List (List Char)) (e : List Char)
    (he : e ∈ (processLines ls).1) :
    ∃ line ∈ ls, startsWithL "#".data line = false ∧
      containsL line orgDomain = true ∧
      e ∈ (scanFields [] false (splitOnCh ' ' line)).1 := by
  induction ls with
  | nil => exact absurd he (List.not_mem_nil e)
  | cons line rest ih =>
    by_cases h1 : startsWithL "#".data line = true
    · simp only [processLines, h1, if_pos] at he
      obtain ⟨l, hl, hp⟩ := ih he
      exact ⟨l, List.mem_cons_of_mem line hl, hp⟩
    · simp only [Bool.not_eq_true] at h1
      by_cases h2 : containsL line orgDomain = true
      · simp only [processLines, h1, h2, Bool.not_true, if_neg, Bool.false_eq_true,
          not_false_iff, ite_false] at he
        rcases List.mem_append.mp he with hleft | hright
        · exact ⟨line, List.mem_cons_self line rest, h1, h2, hleft⟩
        · obtain ⟨l, hl, hp⟩ := ih hright
          exact ⟨l, List.mem_cons_of_mem line hl, hp⟩
      · simp only [Bool.not_eq_true] at h2
        simp only [processLines, h1, h2, Bool.not_false, if_neg, ite_true,
          Bool.false_eq_true, not_false_iff, if_true] at he
        obtain ⟨l, hl, hp⟩ := ih he
        exact ⟨l, List.mem_cons_of_mem line hl, hp⟩

/-- C2 counterexample: on the roster line
`Jane Doe <jane@gmail.com> <jane@cockroachlabs.com>` — a line that contains
the required substring — the extracted email set contains
`jane@gmail.com`, which does not contain the internal-domain substring, so
not every extracted email contains it. -/
theorem roster_email_without_domain :
    "jane@gmail.com".data ∈ (getOrganizationEmailsAndNamesFromAuthors
      "Jane Doe <jane@gmail.com> <jane@cockroachlabs.com>".data).1 ∧
    containsL "jane@gmail.com".data orgDomain = false := by
  decide

/-- C2 amended: every email in the extracted set comes from a kept line of the
roster — a line that is not commented and contains the required
internal-domain substring — via that line's own field scan; hence no email of
a skipped (commented or non-matching) line enters the set.  (The emails
themselves need not contain the substring.) -/
theorem roster_emails_from_kept_lines (contents : List Char) (e : List Char)
    (he : e ∈ (getOrganizationEmailsAndNamesFromAuthors contents).1) :
    ∃ line ∈ splitOnCh '\n' contents, startsWithL "#".data line = false ∧
      containsL line orgDomain = true ∧
      e ∈ (scanFields [] false (splitOnCh ' ' line)).1 :=
  processLines_email_sourced (splitOnCh '\n' contents) e he

/-- C2 witness: the theorem applied to the single-line roster
`Jane Doe <jane@cockroachlabs.com>` and its extracted email. -/
theorem roster_emails_from_kept_lines_witness :
    ∃ line ∈ splitOnCh '\n' "Jane Doe <jane@cockroachlabs.com>".data,
      startsWithL "#".data line = false ∧
      containsL line orgDomain = true ∧
      "jane@cockroachlabs.com".data ∈ (scanFields [] false (splitOnCh ' ' line)).1 :=
  roster_emails_from_kept_lines "Jane Doe <jane@cockroachlabs.com>".data
    "jane@cockroachlabs.com".data (by decide)

/-- C7: for a roster line (no newline in it) that is not commented, contains
the required substring, and has more than one email token among its fields,
the provider extracts as names exactly the one string of fields preceding the
first email token, and as emails all the stripped email tokens of the line. -/
theorem roster_line_first_name_all_emails (line : List Char)
    (hnl : '\n' ∉ line)
    (h1 : startsWithL "#".data line = false)
    (h2 : containsL line orgDomain = true)
    (htok : 2 ≤ (splitOnCh ' ' line).countP isEmailTok) :
    getOrganizationEmailsAndNamesFromAuthors line =
      (((splitOnCh ' ' line).filter isEmailTok).map stripTok,
        [joinCh ' ' ((splitOnCh ' ' line).takeWhile (fun f => !isEmailTok f))]) := by
  have hex : ∃ f ∈ splitOnCh ' ' line, isEmailTok f = true :=
    List.countP_pos_iff.mp (by omega)
  have hsplit : splitOnCh '\n' line = [line] := splitOnCh_eq_self '\n' line hnl
  simp only [getOrganizationEmailsAndNamesFromAuthors, hsplit, processLines, h1,
    h2, Bool.not_true, Bool.false_eq_true, not_false_iff, ite_false, if_neg,
    List.append_nil, ite_true]
  rw [scanFields_fst, scanFields_snd _ _ hex]
  simp

/-- C7 witness: the theorem applied to the line
`Jane Doe <jane@gmail.com> <jane@cockroachlabs.com>`, which carries two email
tokens. -/
theorem roster_line_first_name_all_emails_witness :
    getOrganizationEmailsAndNamesFromAuthors
        "Jane Doe <jane@gmail.com> <jane@cockroachlabs.com>".data =
      ((((splitOnCh ' ' "Jane Doe <jane@gmail.com> <jane@cockroachlabs.com>".data).filter
          isEmailTok).map stripTok),
        [joinCh ' '
          ((splitOnCh ' ' "Jane Doe <jane@gmail.com> <jane@cockroachlabs.com>".data).takeWhile
            (fun f => !isEmailTok f))]) :=
  roster_line_first_name_all_emails
    "Jane Doe <jane@gmail.com> <jane@cockroachlabs.com>".data
    (by decide) (by decide) (by decide) (by decide)

/-- Digit characters render and read back correctly. -/
theorem digitCh_spec : ∀ d : Nat, d < 10 →
    isDigitCh (digitCh d) = true ∧ digitVal (digitCh d) = d := by
  decide

/-- Left decomposition of padded rendering: the leading character is the most
significant digit. -/
theorem pad_succ_eq_cons (w : Nat) : ∀ n : Nat, n < 10 ^ (w + 1) →
    pad (w + 1) n = digitCh (n / 10 ^ w) :: pad w (n % 10 ^ w) := by
  induction w with
  | zero =>
    intro n hn
    have hn' : n < 10 := by simpa using hn
    simp [pad, Nat.mod_eq_of_lt hn', Nat.div_one]
  | succ w ih =>
    intro n hn
    have hdiv : n / 10 < 10 ^ (w + 1) := by
      rw [Nat.div_lt_iff_lt_mul (by norm_num : (0:Nat) < 10)]
      calc n < 10 ^ (w + 1 + 1) := hn
        _ = 10 ^ (w + 1) * 10 := by rw [pow_succ]
    have e1 : n / 10 / 10 ^ w = n / 10 ^ (w + 1) := by
      rw [Nat.div_div_eq_div_mul, ← pow_succ']
    have e2 : n % 10 ^ (w + 1) % 10 = n % 10 := by
      exact Nat.mod_mod_of_dvd n (dvd_pow_self 10 (Nat.succ_ne_zero w))
    have e3 : n % 10 ^ (w + 1) / 10 = n / 10 % 10 ^ w := by
      rw [pow_succ']
      exact Nat.mod_mul_right_div_self n 10 (10 ^ w)
    show pad (w + 1) (n / 10) ++ [digitCh (n % 10)] =
      digitCh (n / 10 ^ (w + 1)) ::
        (pad w (n % 10 ^ (w + 1) / 10) ++ [digitCh (n % 10 ^ (w + 1) % 10)])
    rw [ih (n / 10) hdiv, e1, e2, e3, List.cons_append]

/-- Reading a fixed-width field back over a padded rendering recovers the
value and leaves the tail untouched. -/
theorem readFixed_pad (w : Nat) : ∀ (acc n : Nat) (rest : List Char),
    n < 10 ^ w →
    readFixed w acc (pad w n ++ rest) = some (acc * 10 ^ w + n, rest) := by
  induction w with
  | zero =>
    intro acc n rest hn
    interval_cases n
    simp [pad, readFixed]
  | succ w ih =>
    intro acc n rest hn
    have hq : n / 10 ^ w < 10 := by
      rw [Nat.div_lt_iff_lt_mul (Nat.pos_pow_of_pos w (by norm_num))]
      calc n < 10 ^ (w + 1) := hn
        _ = 10 * 10 ^ w := by rw [pow_succ']
    have hr : n % 10 ^ w < 10 ^ w :=
      Nat.mod_lt n (Nat.pos_pow_of_pos w (by norm_num))
    obtain ⟨hdig, hval⟩ := digitCh_spec (n / 10 ^ w) hq
    rw [pad_succ_eq_cons w n hn]
    simp only [List.cons_append, List.append_eq, readFixed, hdig, if_pos, hval]
    rw [ih (acc * 10 + n / 10 ^ w) (n % 10 ^ w) rest hr]
    have key : (acc * 10 + n / 10 ^ w) * 10 ^ w + n % 10 ^ w =
        acc * 10 ^ (w + 1) + n := by
      have hn' := Nat.div_add_mod n (10 ^ w)
      calc (acc * 10 + n / 10 ^ w) * 10 ^ w + n % 10 ^ w
          = acc * (10 ^ w * 10) + (10 ^ w * (n / 10 ^ w) + n % 10 ^ w) := by ring
        _ = acc * 10 ^ (w + 1) + n := by rw [hn', ← pow_succ]
    rw [key]

/-- Every month has at most 31 days. -/
theorem daysInMonth_le (y m : Nat) : daysInMonth y m ≤ 31 := by
  unfold daysInMonth
  split <;> [split <;> omega; split <;> omega]

/-- Parsing a formatted valid timestamp recovers it exactly. -/
theorem parseRFC3339_formatRFC3339 (d : DateTime) (h : ValidDateTime d) :
    parseRFC3339 (formatRFC3339 d) = some d := by
  obtain ⟨y, mo, da, hh, mi, ss⟩ := d
  obtain ⟨h1, h2, h3, h4, h5, h6, h7, h8⟩ := h
  simp only at h1 h2 h3 h4 h5 h6 h7 h8
  have hda : da ≤ 31 := le_trans h5 (daysInMonth_le y mo)
  have p4 : (10:Nat) ^ 4 = 10000 := by norm_num
  have p2 : (10:Nat) ^ 2 = 100 := by norm_num
  simp only [formatRFC3339, parseRFC3339]
  rw [readFixed_pad 4 0 y _ (by omega)]
  simp only [expectCh, if_pos, zero_mul, zero_add]
  rw [readFixed_pad 2 0 mo _ (by omega)]
  simp only [expectCh, if_pos, zero_mul, zero_add]
  rw [readFixed_pad 2 0 da _ (by omega)]
  simp only [expectCh, if_pos, zero_mul, zero_add]
  rw [readFixed_pad 2 0 hh _ (by omega)]
  simp only [expectCh, if_pos, zero_mul, zero_add]
  rw [readFixed_pad 2 0 mi _ (by omega)]
  simp only [expectCh, if_pos, zero_mul, zero_add]
  rw [readFixed_pad 2 0 ss _ (by omega)]
  simp only [expectCh, if_pos, zero_mul, zero_add]
  simp [h2, h3, h4, h5, h6, h7, h8]

/-- Storing then loading a timestamp list of valid timestamps is lossless. -/
theorem loadTimes_storeTimes (ts : List DateTime)
    (h : ∀ d ∈ ts, ValidDateTime d) : loadTimes (storeTimes ts) = some ts := by
  induction ts with
  | nil => rfl
  | cons d ds ih =>
    have hd : ValidDateTime d := h d (List.mem_cons_self d ds)
    have hds : ∀ x ∈ ds, ValidDateTime x := fun x hx => h x (List.mem_cons_of_mem d hx)
    simp only [storeTimes, List.map_cons, loadTimes,
      parseRFC3339_formatRFC3339 d hd]
    have := ih hds
    simp only [storeTimes] at this
    rw [this]

/-- C3: the checkpoint round-trips exactly: loading the artifact produced by
storing a contribution record (login to timestamp-list mapping of valid UTC
second-precision timestamps) reproduces the record, every timestamp equal to
the original to the second. -/
theorem checkpoint_round_trip (R : List (String × List DateTime))
    (h : ∀ p ∈ R, ∀ d ∈ p.2, ValidDateTime d) :
    loadRecord (storeRecord R) = some R := by
  induction R with
  | nil => rfl
  | cons p ps ih =>
    have hp : ∀ d ∈ p.2, ValidDateTime d := h p (List.mem_cons_self p ps)
    have hps : ∀ q ∈ ps, ∀ d ∈ q.2, ValidDateTime d :=
      fun q hq => h q (List.mem_cons_of_mem p hq)
    simp only [storeRecord, List.map_cons, loadRecord,
      loadTimes_storeTimes p.2 hp]
    have := ih hps
    simp only [storeRecord] at this
    rw [this]

/-- C3 witness: the theorem applied to a concrete one-user record with one
timestamp, `external1 ↦ [2021-03-14T01:05:09Z]`. -/
theorem checkpoint_round_trip_witness :
    loadRecord (storeRecord [("external1", [⟨2021, 3, 14, 1, 5, 9⟩])]) =
      some [("external1", [⟨2021, 3, 14, 1, 5, 9⟩])] :=
  checkpoint_round_trip [("external1", [⟨2021, 3, 14, 1, 5, 9⟩])] (by decide)

/-! ## Ranking order apparatus -/

/-- The strict ranking order the report lists entries in: greater in-range
count first, and among equal counts the lexicographically smaller login
first. -/
def RankedBefore (a b : RankEntry) : Prop :=
  b.count < a.count ∨ (a.count = b.count ∧ a.u.login < b.u.login)

/-- `leEntry` is the non-strict version of the source comparator. -/
theorem leEntry_iff (a b : RankEntry) :
    leEntry a b = true ↔
      b.count < a.count ∨ (a.count = b.count ∧ a.u.login ≤ b.u.login) := by
  unfold leEntry lessEntry
  rcases eq_or_ne b.count a.count with h | h
  · simp [h, not_lt]
  · have h' : a.count ≠ b.count := Ne.symm h
    simp only [if_neg h, Bool.not_eq_true', decide_eq_false_iff_not, gt_iff_lt,
      not_lt, h', false_and, or_false]
    omega

/-- The source comparator's non-strict version is transitive. -/
theorem leEntry_trans (a b c : RankEntry) (h1 : leEntry a b = true)
    (h2 : leEntry b c = true) : leEntry a c = true := by
  rw [leEntry_iff] at h1 h2 ⊢
  rcases h1 with h1 | ⟨h1e, h1l⟩ <;> rcases h2 with h2 | ⟨h2e, h2l⟩
  · exact Or.inl (lt_trans h2 h1)
  · exact Or.inl (h2e ▸ h1)
  · exact Or.inl (h1e ▸ h2)
  · exact Or.inr ⟨h1e.trans h2e, le_trans h1l h2l⟩

/-- The source comparator's non-strict version is total. -/
theorem leEntry_total (a b : RankEntry) :
    (leEntry a b || leEntry b a) = true := by
  rw [Bool.or_eq_true, leEntry_iff, leEntry_iff]
  rcases Nat.lt_trichotomy a.count b.count with h | h | h
  · exact Or.inr (Or.inl h)
  · rcases le_total a.u.login b.u.login with hl | hl
    · exact Or.inl (Or.inr ⟨h, hl⟩)
    · exact Or.inr (Or.inr ⟨h.symm, hl⟩)
  · exact Or.inl (Or.inl h)

/-- The strict ranking order is asymmetric. -/
theorem rankedBefore_asymm (a b : RankEntry) (h : RankedBefore a b) :
    ¬ RankedBefore b a := by
  intro h'
  rcases h with h | ⟨he, hl⟩ <;> rcases h' with h' | ⟨he', hl'⟩
  · omega
  · omega
  · omega
  · exact absurd hl' (not_lt.mpr (le_of_lt hl))

/-- Two permuted lists that are both pairwise-ordered by an asymmetric
relation are equal. -/
theorem perm_pairwise_eq {α : Type} {r : α → α → Prop}
    (hasymm : ∀ a b, r a b → ¬ r b a) :
    ∀ (l₁ l₂ : List α), l₁.Perm l₂ → l₁.Pairwise r → l₂.Pairwise r →
      l₁ = l₂ := by
  intro l₁
  induction l₁ with
  | nil =>
    intro l₂ hp _ _
    exact (hp.symm.eq_nil).symm
  | cons a t ih =>
    intro l₂ hp h1 h2
    cases l₂ with
    | nil => exact absurd hp.eq_nil (by simp)
    | cons b t₂ =>
      have hab : a = b := by
        by_contra hne
        have ha : a ∈ b :: t₂ := hp.mem_iff.mp (List.mem_cons_self a t)
        have ha' : a ∈ t₂ := by
          rcases List.mem_cons.mp ha with h | h
          · exact absurd h hne
          · exact h
        have hb : b ∈ a :: t := hp.mem_iff.mpr (List.mem_cons_self b t₂)
        have hb' : b ∈ t := by
          rcases List.mem_cons.mp hb with h | h
          · exact absurd h.symm hne
          · exact h
        have r1 : r a b := (List.pairwise_cons.mp h1).1 b hb'
        have r2 : r b a := (List.pairwise_cons.mp h2).1 a ha'
        exact hasymm a b r1 r2
      subst hab
      rw [ih t₂ hp.cons_inv (List.pairwise_cons.mp h1).2
        (List.pairwise_cons.mp h2).2]

/-- An entry of the `toSort` list is built from a user of the input list. -/
theorem mem_toSortList_mem {e : RankEntry} {users : List GoUser}
    {fromT toT : Int} (he : e ∈ toSortList users fromT toT) :
    e.u ∈ users := by
  obtain ⟨u, hu, heq⟩ := List.mem_filterMap.mp he
  by_cases hc : inRangeCount fromT toT u.times = 0
  · simp [hc] at heq
  · simp only [hc, if_neg, ite_false] at heq
    cases heq
    exact hu

/-- A login appearing among the `toSort` entries appears among the input
users' logins. -/
theorem login_mem_of_mem_toSortList {x : String} {users : List GoUser}
    {fromT toT : Int}
    (hx : x ∈ (toSortList users fromT toT).map (fun e => e.u.login)) :
    x ∈ users.map GoUser.login := by
  obtain ⟨e, he, hex⟩ := List.mem_map.mp hx
  exact List.mem_map.mpr ⟨e.u, mem_toSortList_mem he, hex⟩

/-- Distinct input logins give distinct `toSort` entry logins. -/
theorem toSortList_login_nodup {users : List GoUser} (fromT toT : Int)
    (h : (users.map GoUser.login).Nodup) :
    ((toSortList users fromT toT).map (fun e => e.u.login)).Nodup := by
  induction users with
  | nil => simp [toSortList]
  | cons u us ih =>
    rw [List.map_cons, List.nodup_cons] at h
    obtain ⟨h1, h2⟩ := h
    by_cases hc : inRangeCount fromT toT u.times = 0
    · simpa [toSortList, List.filterMap_cons, hc] using ih h2
    · simp only [toSortList, List.filterMap_cons, hc, ite_false, if_neg,
        List.map_cons, List.nodup_cons]
      refine ⟨fun hmem => h1 (login_mem_of_mem_toSortList hmem), ih h2⟩

/-- C6: in every rendered bucket the ranking is the strict total order of the
comparator: after sorting, every earlier entry has a strictly greater
in-range count, or an equal count and a strictly smaller login, than every
later entry. -/
theorem ranking_total_order (users : List GoUser) (fromT toT : Int)
    (hnd : (users.map GoUser.login).Nodup) :
    (sortedEntries users fromT toT).Pairwise RankedBefore := by
  have hs : (sortedEntries users fromT toT).Pairwise
      (fun a b => leEntry a b = true) :=
    List.sorted_mergeSort leEntry_trans leEntry_total (toSortList users fromT toT)
  have hperm := List.mergeSort_perm (toSortList users fromT toT) leEntry
  have hnd₂ : ((sortedEntries users fromT toT).map (fun e => e.u.login)).Nodup :=
    (hperm.map (fun e => e.u.login)).nodup_iff.mpr
      (toSortList_login_nodup fromT toT hnd)
  have hne : (sortedEntries users fromT toT).Pairwise
      (fun a b => a.u.login ≠ b.u.login) :=
    List.pairwise_map.mp hnd₂
  refine (hs.and hne).imp ?_
  rintro a b ⟨hle, hlogin⟩
  rcases (leEntry_iff a b).mp hle with h | ⟨he, hl⟩
  · exact Or.inl h
  · exact Or.inr ⟨he, lt_of_le_of_ne hl hlogin⟩

/-- C6 witness: the theorem applied to two users with distinct logins. -/
theorem ranking_total_order_witness :
    (sortedEntries [⟨"u1", "alice", "Alice", [5]⟩, ⟨"u2", "bob", "Bob", [6, 7]⟩]
      0 10).Pairwise RankedBefore :=
  ranking_total_order
    [⟨"u1", "alice", "Alice", [5]⟩, ⟨"u2", "bob", "Bob", [6, 7]⟩] 0 10
    (by decide)

/-- C10: the bucket formatter is deterministic: presenting the same user
mapping in any other iteration order (any permutation, logins distinct as map
keys are) yields the identical report text. -/
theorem formatter_deterministic (users₁ users₂ : List GoUser)
    (fromT toT : Int) (hperm : users₁.Perm users₂)
    (hnd : (users₁.map GoUser.login).Nodup) :
    formatContributors users₁ fromT toT = formatContributors users₂ fromT toT := by
  have hkey : sortedEntries users₁ fromT toT = sortedEntries users₂ fromT toT := by
    apply perm_pairwise_eq rankedBefore_asymm
    · exact (List.mergeSort_perm _ leEntry).trans
        ((hperm.filterMap _).trans (List.mergeSort_perm _ leEntry).symm)
    · exact ranking_total_order users₁ fromT toT hnd
    · exact ranking_total_order users₂ fromT toT
        ((hperm.map GoUser.login).nodup_iff.mp hnd)
  unfold formatContributors
  rw [hkey]

/-- C10 witness: the theorem applied to a two-user mapping iterated in the
two possible orders. -/
theorem formatter_deterministic_witness :
    formatContributors
        [⟨"u1", "alice", "Alice", [5]⟩, ⟨"u2", "bob", "Bob", [6]⟩] 0 10 =
      formatContributors
        [⟨"u2", "bob", "Bob", [6]⟩, ⟨"u1", "alice", "Alice", [5]⟩] 0 10 :=
  formatter_deterministic
    [⟨"u1", "alice", "Alice", [5]⟩, ⟨"u2", "bob", "Bob", [6]⟩]
    [⟨"u2", "bob", "Bob", [6]⟩, ⟨"u1", "alice", "Alice", [5]⟩] 0 10
    (List.Perm.swap (⟨"u2", "bob", "Bob", [6]⟩ : GoUser)
      (⟨"u1", "alice", "Alice", [5]⟩ : GoUser) [])
    (by decide)

/-- The `total` fold sums the entry counts. -/
theorem totalCount_eq_sum (l : List RankEntry) :
    totalCount l = (l.map RankEntry.count).sum := by
  have general : ∀ (l : List RankEntry) (n : Nat),
      l.foldl (fun acc e => acc + e.count) n = n + (l.map RankEntry.count).sum := by
    intro l
    induction l with
    | nil => intro n; simp
    | cons e es ih =>
      intro n
      simp only [List.foldl_cons, List.map_cons, List.sum_cons, ih]
      omega
  simpa using general l 0

/-- Unfolding equation for `toSortList` on a cons cell. -/
theorem toSortList_cons (u : GoUser) (us : List GoUser) (fromT toT : Int) :
    toSortList (u :: us) fromT toT =
      if inRangeCount fromT toT u.times = 0 then toSortList us fromT toT
      else ⟨u, inRangeCount fromT toT u.times⟩ :: toSortList us fromT toT := by
  by_cases hc : inRangeCount fromT toT u.times = 0
  · simp [toSortList, List.filterMap_cons, hc]
  · simp [toSortList, List.filterMap_cons, hc]

/-- The `toSort` list has one entry per user with a positive in-range count. -/
theorem toSortList_length (users : List GoUser) (fromT toT : Int) :
    (toSortList users fromT toT).length =
      users.countP (fun u => decide (0 < inRangeCount fromT toT u.times)) := by
  induction users with
  | nil => rfl
  | cons u us ih =>
    rw [toSortList_cons, List.countP_cons]
    by_cases hc : inRangeCount fromT toT u.times = 0
    · simp [hc, ih]
    · simp [hc, ih, Nat.pos_of_ne_zero hc]

/-- The `toSort` counts sum to the total in-range count over all users. -/
theorem toSortList_sum (users : List GoUser) (fromT toT : Int) :
    ((toSortList users fromT toT).map RankEntry.count).sum =
      (users.map (fun u => inRangeCount fromT toT u.times)).sum := by
  induction users with
  | nil => rfl
  | cons u us ih =>
    rw [toSortList_cons, List.map_cons, List.sum_cons]
    by_cases hc : inRangeCount fromT toT u.times = 0
    · simp [hc, ih]
    · simp [hc, ih]

/-- The `toSort` list is empty when no user has an in-range timestamp. -/
theorem toSortList_eq_nil (users : List GoUser) (fromT toT : Int)
    (hz : ∀ u ∈ users, inRangeCount fromT toT u.times = 0) :
    toSortList users fromT toT = [] := by
  induction users with
  | nil => rfl
  | cons u us ih =>
    have hu : inRangeCount fromT toT u.times = 0 :=
      hz u (List.mem_cons_self u us)
    have hus : ∀ v ∈ us, inRangeCount fromT toT v.times = 0 :=
      fun v hv => hz v (List.mem_cons_of_mem u hv)
    rw [toSortList_cons, if_pos hu, ih hus]

/-- C8: every rendered bucket begins with a summary line whose first number
is the count of users having at least one timestamp strictly within the
range and whose second number is the total count of such timestamps over all
users; and a range with no in-range timestamp renders the valid zero-count
block `0 contributors, 0 commits` followed by the blank line and no entry. -/
theorem summary_line_counts (users : List GoUser) (fromT toT : Int) :
    (formatContributors users fromT toT =
      toString (users.countP (fun u => decide (0 < inRangeCount fromT toT u.times))) ++
        " contributors, " ++
        toString ((users.map (fun u => inRangeCount fromT toT u.times)).sum) ++
        " commits\n\n" ++
        String.intercalate ", " ((sortedEntries users fromT toT).map formatEntry)) ∧
    ((∀ u ∈ users, inRangeCount fromT toT u.times = 0) →
      formatContributors users fromT toT = "0 contributors, 0 commits\n\n") := by
  constructor
  · have hlen : (sortedEntries users fromT toT).length =
        users.countP (fun u => decide (0 < inRangeCount fromT toT u.times)) := by
      unfold sortedEntries
      rw [(List.mergeSort_perm (toSortList users fromT toT) leEntry).length_eq]
      exact toSortList_length users fromT toT
    have hsum : totalCount (sortedEntries users fromT toT) =
        (users.map (fun u => inRangeCount fromT toT u.times)).sum := by
      rw [totalCount_eq_sum]
      unfold sortedEntries
      rw [((List.mergeSort_perm (toSortList users fromT toT) leEntry).map
          RankEntry.count).sum_eq]
      exact toSortList_sum users fromT toT
    unfold formatContributors
    rw [hlen, hsum]
  · intro hz
    have hnil : toSortList users fromT toT = [] := toSortList_eq_nil users fromT toT hz
    unfold formatContributors sortedEntries
    rw [hnil, List.mergeSort_nil]
    decide

/-- C8 witness: the empty-range part of the theorem applied to a user whose
only timestamp lies outside the bucket. -/
theorem summary_line_counts_witness :
    formatContributors [⟨"u1", "ext", "Ext", [50]⟩] 0 10 =
      "0 contributors, 0 commits\n\n" :=
  (summary_line_counts [⟨"u1", "ext", "Ext", [50]⟩] 0 10).2 (by decide)

/-- C4: no identity of the filter set reaches the report: every entry ranked
into any bucket (yearly or all-time) of the enrichment output has a login
outside the blocklist and a resolved display name outside the internal-names
set. -/
theorem no_blocklisted_identity_in_report (results : List GoUser)
    (blocklisted blocklistedNames : List String) (fromT toT : Int) :
    ∀ e ∈ sortedEntries (collectUsers results blocklisted blocklistedNames)
        fromT toT,
      e.u.login ∉ blocklisted ∧ e.u.name ∉ blocklistedNames := by
  intro e he
  have h1 : e ∈ toSortList (collectUsers results blocklisted blocklistedNames)
      fromT toT :=
    (List.mergeSort_perm _ leEntry).mem_iff.mp he
  have h2 : e.u ∈ collectUsers results blocklisted blocklistedNames :=
    mem_toSortList_mem h1
  obtain ⟨_, hcond⟩ := List.mem_filter.mp h2
  rw [Bool.and_eq_true] at hcond
  obtain ⟨hl, hn⟩ := hcond
  rw [Bool.not_eq_true'] at hl hn
  simp at hl hn
  exact ⟨hl, hn⟩

/-- C4 witness: the theorem applied to an enrichment result containing a
blocklisted login and a surviving external user, at the all-time bucket. -/
theorem no_blocklisted_identity_in_report_witness :
    (⟨⟨"u1", "alice", "Alice", [5]⟩, 1⟩ : RankEntry).u.login ∉ ["spammer"] ∧
    (⟨⟨"u1", "alice", "Alice", [5]⟩, 1⟩ : RankEntry).u.name ∉ ["Jane Doe"] :=
  no_blocklisted_identity_in_report
    [⟨"u2", "spammer", "Spam", [5]⟩, ⟨"u1", "alice", "Alice", [5]⟩]
    ["spammer"] ["Jane Doe"] 0 10
    ⟨⟨"u1", "alice", "Alice", [5]⟩, 1⟩
    (by
      unfold sortedEntries
      rw [show toSortList
          (collectUsers [⟨"u2", "spammer", "Spam", [5]⟩,
            ⟨"u1", "alice", "Alice", [5]⟩] ["spammer"] ["Jane Doe"]) 0 10 =
          [⟨⟨"u1", "alice", "Alice", [5]⟩, 1⟩] from by decide,
        List.mergeSort_singleton]
      exact List.mem_singleton_self _)

end ExternContribs
